import Mathlib

/-!
Verification development for the Mini-NDN `Minindn` class (`minindn/minindn.py`).

The Python module has three algorithmic pieces, embedded below:

* `processTopo`: parses an INI-like topology description (`configparser` with
  `delimiters=' '`) into a trace of `addHost` / `addSwitch` / `addLink` calls
  on a Mininet `Topo` object.  The `configparser` layer is an external
  collaborator; we model its result (section name ↦ list of key/value items)
  and Python's `str.split` / `int` / dict-update primitives faithfully.
* `ethernetPairConnectivity`: walks the hosts' interface lists and assigns
  sequential /30 IP pairs starting from `10.0.0.0` to links whose endpoints
  are not switches.  IPv4 addresses are Nat; mininet's `ipStr`/`ipParse`
  round-trip truncates to 32 bits, hence the explicit `% 2^32`.
* `stop`: runs registered cleanup callbacks, stops the net, and moves result
  files; modelled as a trace of effect events.

Python `sys.exit(1)` and uncaught exceptions are modelled with `PyErr`.
-/

/-- Python-level abnormal terminations relevant to `minindn.py`:
`configparser.NoSectionError`, `sys.exit(code)`, `ValueError` from `int()`,
and `IndexError` from an out-of-range `[1]` subscript after `split`. -/
inductive PyErr where
  | noSection (section_ : String)
  | systemExit (code : Nat)
  | valueError
  | indexError
deriving DecidableEq, Repr

/-- A parsed link-parameter value: Python leaves most values as `str`,
coerces `bw`/`jitter`/`max_queue_size` through `int()` and `loss` through
`float()`.  The float payload keeps the literal text; IEEE semantics are
delegated to the runtime exactly as the Python code delegates them. -/
inductive PVal where
  | str (s : String)
  | int (n : Int)
  | float (s : String)
deriving DecidableEq, Repr

/-- One call made on the Mininet `Topo` object while building the topology. -/
inductive TopoOp where
  | addHost (name : String) (params : List (String × String))
  | addSwitch (name : String)
  | addLink (a : String) (b : String) (params : List (String × PVal))
deriving DecidableEq, Repr

/-- The result of `configparser.ConfigParser.read`: sections in file order,
each a list of `(option, value)` items in file order. -/
def Config : Type := List (String × List (String × String))

/-- `config.items(section_)`: the section's items, or `NoSectionError`. -/
def configItems (cfg : Config) (section_ : String) : Except PyErr (List (String × String)) :=
  match cfg.find? (fun sec => sec.1 = section_) with
  | some sec => .ok sec.2
  | none => .error (.noSection section_)

/-- `config.has_section`-style test used to state section-presence facts. -/
def hasSection (cfg : Config) (section_ : String) : Bool :=
  (cfg.find? (fun sec => sec.1 = section_)).isSome

/-- Python `s.split(sep)` for a single-character separator, on char lists:
`''.split(c) = ['']`, and consecutive separators yield empty fields. -/
def splitListOn (sep : Char) : List Char → List (List Char)
  | [] => [[]]
  | c :: rest =>
    match splitListOn sep rest with
    | [] => [[c]]
    | g :: gs => if c = sep then [] :: g :: gs else (c :: g) :: gs

/-- Python `s.split(sep)` (explicit single-character separator). -/
def pySplit (s : String) (sep : Char) : List String :=
  (splitListOn sep s.toList).map (fun cs => String.mk cs)

/-- Python's `xs[0]` on a `split` result; `split` never returns an empty
list, so the default is unreachable. -/
def pyIndex0 (xs : List String) : String := xs.headD ""

/-- Decimal digit value of a character, if it is a digit. -/
def digitVal (c : Char) : Option Nat :=
  if '0' ≤ c ∧ c ≤ '9' then some (c.toNat - '0'.toNat) else none

/-- Accumulate decimal digits; `none` on any non-digit. -/
def natOfDigits : List Char → Nat → Option Nat
  | [], acc => some acc
  | c :: cs, acc =>
    match digitVal c with
    | some d => natOfDigits cs (acc * 10 + d)
    | none => none

/-- Python `int(s)` on the literal forms that occur in topology files:
an optional sign followed by decimal digits; `none` models `ValueError`.
(Exotic literal forms — surrounding whitespace, underscores — are not
exercised by any claim and are not modelled.) -/
def pyInt (s : String) : Option Int :=
  match s.toList with
  | [] => none
  | '-' :: cs =>
    if cs = [] then none else (natOfDigits cs 0).map (fun n => -(n : Int))
  | '+' :: cs =>
    if cs = [] then none else (natOfDigits cs 0).map (fun n => (n : Int))
  | cs => (natOfDigits cs 0).map (fun n => (n : Int))

/-- Python `dict[k] = v`: replace the value of an existing key in place,
else append the new binding (dicts preserve insertion order). -/
def dictInsert {α : Type} (ps : List (String × α)) (k : String) (v : α) :
    List (String × α) :=
  if ps.any (fun p => p.1 = k) then
    ps.map (fun p => if p.1 = k then (k, v) else p)
  else ps ++ [(k, v)]

/-- The node-parameter loop body of `processTopo`:
`for param in item[1].split(' '): if param == '_': continue;
params[param.split('=')[0]] = param.split('=')[1]`.
A token with no `=` raises `IndexError` at the `[1]` subscript. -/
def paramsOfTokens : List String → List (String × String) →
    Except PyErr (List (String × String))
  | [], ps => .ok ps
  | t :: ts, ps =>
    if t = "_" then paramsOfTokens ts ps
    else
      match pySplit t '=' with
      | k :: v :: _ => paramsOfTokens ts (dictInsert ps k v)
      | _ => .error .indexError

/-- One `nodes`-section entry: host name is the key up to the first `:`,
parameters come from the space-split value; ends in `addHost(name, params)`. -/
def hostOpOf (it : String × String) : Except PyErr TopoOp :=
  match paramsOfTokens (pySplit it.2 ' ') [] with
  | .error e => .error e
  | .ok ps => .ok (.addHost (pyIndex0 (pySplit it.1 ':')) ps)

/-- The `nodes`-section loop of `processTopo`, carrying the `coordinates`
accumulator: a value already seen and different from `'_'` is a fatal
duplicate (`error` then `sys.exit(1)`). -/
def nodesLoop : List (String × String) → List String → Except PyErr (List TopoOp)
  | [], _ => .ok []
  | it :: rest, coords =>
    if it.2 ∈ coords ∧ it.2 ≠ "_" then .error (.systemExit 1)
    else
      match hostOpOf it with
      | .error e => .error e
      | .ok op =>
        match nodesLoop rest (coords ++ [it.2]) with
        | .error e => .error e
        | .ok ops => .ok (op :: ops)

/-- The `switches` section of `processTopo`: one `addSwitch` per entry;
a missing section is caught (`except NoSectionError: pass`) and
contributes nothing. -/
def switchOps (cfg : Config) : List TopoOp :=
  match configItems cfg "switches" with
  | .ok items => items.map (fun it => .addSwitch (pyIndex0 (pySplit it.1 ':')))
  | .error _ => []

/-- One `key=value` token of a `links`-section entry:
`bw`/`jitter`/`max_queue_size` are coerced with `int()` (`ValueError` on
failure), `loss` with `float()`, anything else stays a string.  A token
with no `=` raises `IndexError`.  (`loss` is not one of the int keys, so
Python's two sequential `if`s collapse to this case split.) -/
def linkParamOf (t : String) : Except PyErr (String × PVal) :=
  match pySplit t '=' with
  | k :: v :: _ =>
    if k = "bw" ∨ k = "jitter" ∨ k = "max_queue_size" then
      match pyInt v with
      | some n => .ok (k, .int n)
      | none => .error .valueError
    else if k = "loss" then .ok (k, .float v)
    else .ok (k, .str v)
  | _ => .error .indexError

/-- The link-parameter loop: `params[key] = value` over the split tokens. -/
def linkParamsLoop : List String → List (String × PVal) →
    Except PyErr (List (String × PVal))
  | [], ps => .ok ps
  | t :: ts, ps =>
    match linkParamOf t with
    | .error e => .error e
    | .ok kv => linkParamsLoop ts (dictInsert ps kv.1 kv.2)

/-- One `links`-section entry: parameters are parsed first (as in the
Python loop), then `addLink(link[0], link[1], **params)` subscripts the
colon-split key — fewer than two endpoint names raises `IndexError`. -/
def linkOpOf (it : String × String) : Except PyErr TopoOp :=
  match linkParamsLoop (pySplit it.2 ' ') [] with
  | .error e => .error e
  | .ok ps =>
    match pySplit it.1 ':' with
    | a :: b :: _ => .ok (.addLink a b ps)
    | _ => .error .indexError

/-- Effectful map over a list in the `Except` monad (Python `for` loop
whose body may raise), used for the `links` loop. -/
def exMap {α β : Type} (f : α → Except PyErr β) : List α → Except PyErr (List β)
  | [] => .ok []
  | a :: as =>
    match f a with
    | .error e => .error e
    | .ok b =>
      match exMap f as with
      | .error e => .error e
      | .ok bs => .ok (b :: bs)

/-- `Minindn.processTopo(topoFile)`: nodes loop, optional switches,
links loop; the returned topology is the trace of `Topo` calls in the
order they were issued. -/
def processTopo (cfg : Config) : Except PyErr (List TopoOp) :=
  match configItems cfg "nodes" with
  | .error e => .error e
  | .ok ns =>
    match nodesLoop ns [] with
    | .error e => .error e
    | .ok hostOps =>
      match configItems cfg "links" with
      | .error e => .error e
      | .ok ls =>
        match exMap linkOpOf ls with
        | .error e => .error e
        | .ok linkOps => .ok (hostOps ++ switchOps cfg ++ linkOps)

/-- The topology-loading slice of `Minindn.__init__`:
`try: self.processTopo(...) except configparser.NoSectionError: sys.exit(1)`.
Only `NoSectionError` is caught; other raises propagate. -/
def initTopo (cfg : Config) : Except PyErr (List TopoOp) :=
  match processTopo cfg with
  | .ok t => .ok t
  | .error (.noSection _) => .error (.systemExit 1)
  | .error e => .error e

/-! ### `ethernetPairConnectivity` -/

/-- A mininet link as seen from `ethernetPairConnectivity`: the two
endpoint interfaces (by identity — Python compares interface objects with
`in`/`not in`) and whether each endpoint's node is a `Switch`. -/
structure Link where
  intf1 : Nat
  intf2 : Nat
  sw1 : Bool
  sw2 : Bool
deriving DecidableEq, Repr

/-- One `setIP` call: the interface it targets, the numeric IPv4 address,
and the mask length (always 30 here, from the literal `'/30'`). -/
structure IpAssign where
  intf : Nat
  ip : Nat
  maskLen : Nat
deriving DecidableEq, Repr

/-- The loop state of `ethernetPairConnectivity`: the `interfaces` list of
already-handled interfaces, the `setIP` calls issued so far, and
`ndnNetBase` as a 32-bit number (mininet's `ipStr`/`ipParse` round-trip
truncates to 32 bits, hence `% 2^32` on every update). -/
structure EPCState where
  interfaces : List Nat
  assigns : List IpAssign
  base : Nat
deriving DecidableEq, Repr

/-- `ipParse('10.0.0.0')` = `10 * 2^24`. -/
def ndnNetBase0 : Nat := 10 * 2 ^ 24

/-- The body of the interface walk for one visited link: skip if either
endpoint is a switch; if both interfaces are new, record them, assign
`base+1` and `base+2` as /30 addresses, and advance the base by 4. -/
def epcStep (s : EPCState) (l : Link) : EPCState :=
  if l.sw1 || l.sw2 then s
  else if l.intf1 ∉ s.interfaces ∧ l.intf2 ∉ s.interfaces then
    { interfaces := s.interfaces ++ [l.intf1, l.intf2]
      assigns := s.assigns ++
        [⟨l.intf1, (s.base + 1) % 2 ^ 32, 30⟩, ⟨l.intf2, (s.base + 2) % 2 ^ 32, 30⟩]
      base := (s.base + 4) % 2 ^ 32 }
  else s

/-- `Minindn.ethernetPairConnectivity`: fold of the loop body over the
flattened walk `for host in self.net.hosts: for intf in host.intfList()`,
each visited interface contributing its link. -/
def ethernetPairConnectivity (walk : List Link) : EPCState :=
  walk.foldl epcStep ⟨[], [], ndnNetBase0⟩

/-- The relevant slice of the emulation network for the constructor's
connectivity decision: its switch list and, per host, the links of that
host's interface list. -/
structure Net where
  switches : List String
  hosts : List (List Link)

/-- The walk order of `ethernetPairConnectivity`: hosts in order, each
host's interfaces in order. -/
def netWalk (net : Net) : List Link := net.hosts.foldr (fun h acc => h ++ acc) []

/-- The constructor slice `if not self.net.switches:
self.ethernetPairConnectivity()` — the routine runs exactly when the
switch list is empty (Python list truthiness). -/
def initEthernet (net : Net) : Option EPCState :=
  if net.switches = [] then some (ethernetPairConnectivity (netWalk net)) else none

/-! ### `stop` -/

/-- Observable effects of `Minindn.stop`, in order: invoking a registered
cleanup callback, `self.net.stop()`, `mkdir -p resultDir`, and
`shutil.move(file, resultDir)`. -/
inductive StopEvent where
  | cleanup (cb : String)
  | netStop
  | mkdirp (dir : String)
  | move (file : String) (dest : String)
deriving DecidableEq, Repr

/-- `Minindn.stop`: run every registered cleanup in order, stop the net,
then — only when a result directory is configured — create it and move
every file matching `workDir/*` (the `workFiles` argument) into it. -/
def stopTrace (cleanups : List String) (resultDir : Option String)
    (workFiles : List String) : List StopEvent :=
  cleanups.map StopEvent.cleanup ++ [StopEvent.netStop] ++
    match resultDir with
    | some d => StopEvent.mkdirp d :: workFiles.map (fun f => StopEvent.move f d)
    | none => []

/-! ### Theorems: lifecycle (`stop`) -/

/-- Recognizer for file-move events, used to state frame conditions. -/
def isMoveEvent : StopEvent → Bool
  | .move _ _ => true
  | _ => false

/-- C6: for every sequence of registered cleanup callbacks, `stop` invokes
every one of them, in registration order, before stopping the underlying
emulation network (`net.stop`). -/
theorem stop_runs_cleanups_in_order_before_net (cleanups : List String)
    (resultDir : Option String) (workFiles : List String) :
    ∃ rest, stopTrace cleanups resultDir workFiles =
      cleanups.map StopEvent.cleanup ++ StopEvent.netStop :: rest := by
  cases resultDir with
  | some d =>
    exact ⟨StopEvent.mkdirp d :: workFiles.map (fun f => StopEvent.move f d),
      by simp [stopTrace]⟩
  | none => exact ⟨[], by simp [stopTrace]⟩

/-- C7: on `stop`, result files are collected exactly when a result
directory is configured: with `resultDir = some d` the directory is
created and every work-directory file is moved into it (in order); with
`resultDir = none` the trace is just cleanups plus `net.stop`, containing
no move event, so the working directory's contents stay in place. -/
theorem stop_moves_results_iff_result_dir (cleanups workFiles : List String)
    (d : String) :
    stopTrace cleanups (some d) workFiles =
      cleanups.map StopEvent.cleanup ++ [StopEvent.netStop] ++
        (StopEvent.mkdirp d :: workFiles.map (fun f => StopEvent.move f d)) ∧
    stopTrace cleanups none workFiles =
      cleanups.map StopEvent.cleanup ++ [StopEvent.netStop] ∧
    (stopTrace cleanups none workFiles).filter isMoveEvent = [] := by
  have h2 : stopTrace cleanups none workFiles =
      cleanups.map StopEvent.cleanup ++ [StopEvent.netStop] := by
    simp [stopTrace]
  refine ⟨rfl, h2, ?_⟩
  rw [h2, List.filter_eq_nil_iff]
  intro e he
  rcases List.mem_append.1 he with h | h
  · obtain ⟨c, _, rfl⟩ := List.mem_map.1 h
    simp [isMoveEvent]
  · simp only [List.mem_singleton] at h
    subst h
    simp [isMoveEvent]

/-! ### Theorems: IP assignment -/

/-- C2: automatic IP synthesis happens exactly for switch-less networks —
the constructor runs `ethernetPairConnectivity` if and only if the switch
list is empty, and inside the routine a link with a `Switch` endpoint is
skipped, leaving the state (hence the issued `setIP` calls) unchanged. -/
theorem ethernet_assignment_iff_switchless :
    (∀ net : Net, (initEthernet net).isSome = true ↔ net.switches = []) ∧
    (∀ (s : EPCState) (l : Link), l.sw1 = true ∨ l.sw2 = true → epcStep s l = s) := by
  constructor
  · intro net
    by_cases h : net.switches = [] <;> simp [initEthernet, h]
  · intro s l h
    rcases h with h | h <;> simp [epcStep, h]

theorem ethernet_assignment_iff_switchless_witness :
    (initEthernet ⟨[], [[⟨1, 2, false, false⟩]]⟩).isSome = true ∧
    epcStep ⟨[], [], ndnNetBase0⟩ ⟨1, 2, true, false⟩ = ⟨[], [], ndnNetBase0⟩ :=
  ⟨(ethernet_assignment_iff_switchless.1 ⟨[], [[⟨1, 2, false, false⟩]]⟩).2 rfl,
   ethernet_assignment_iff_switchless.2 ⟨[], [], ndnNetBase0⟩ ⟨1, 2, true, false⟩
     (Or.inl rfl)⟩

/-- The claimed address sequence: after `k` allocated link pairs, pair
`n` (counting from 0) received the addresses `10.0.0.0 + (4n+1)` and
`10.0.0.0 + (4n+2)` (as 32-bit numbers), each with mask length 30. -/
def expectedIps : Nat → List (Nat × Nat)
  | 0 => []
  | k + 1 => expectedIps k ++
      [((ndnNetBase0 + (4 * k + 1)) % 2 ^ 32, 30),
       ((ndnNetBase0 + (4 * k + 2)) % 2 ^ 32, 30)]

lemma epcStep_expected {s : EPCState} {k : Nat} (l : Link)
    (h1 : s.assigns.map (fun a => (a.ip, a.maskLen)) = expectedIps k)
    (h2 : s.assigns.length = 2 * k)
    (h3 : s.base = (ndnNetBase0 + 4 * k) % 2 ^ 32) :
    ∃ k2, (epcStep s l).assigns.map (fun a => (a.ip, a.maskLen)) = expectedIps k2 ∧
      (epcStep s l).assigns.length = 2 * k2 ∧
      (epcStep s l).base = (ndnNetBase0 + 4 * k2) % 2 ^ 32 := by
  unfold epcStep
  split
  · exact ⟨k, h1, h2, h3⟩
  · split
    · refine ⟨k + 1, ?_, ?_, ?_⟩
      · dsimp only
        rw [List.map_append, h1]
        rw [show expectedIps (k + 1) = expectedIps k ++
              [((ndnNetBase0 + (4 * k + 1)) % 2 ^ 32, 30),
               ((ndnNetBase0 + (4 * k + 2)) % 2 ^ 32, 30)] from rfl]
        congr 1
        rw [h3]
        simp only [List.map_cons, List.map_nil, Nat.mod_add_mod]
        rw [Nat.add_assoc, Nat.add_assoc]
      · dsimp only
        rw [List.length_append, h2]
        simp only [List.length_cons, List.length_nil]
        omega
      · dsimp only
        rw [h3, Nat.mod_add_mod,
          show ndnNetBase0 + 4 * k + 4 = ndnNetBase0 + 4 * (k + 1) from by ring]
    · exact ⟨k, h1, h2, h3⟩

lemma epcFold_expected (ws : List Link) :
    ∀ (s : EPCState) (k : Nat),
      s.assigns.map (fun a => (a.ip, a.maskLen)) = expectedIps k →
      s.assigns.length = 2 * k →
      s.base = (ndnNetBase0 + 4 * k) % 2 ^ 32 →
      ∃ k2, (ws.foldl epcStep s).assigns.map (fun a => (a.ip, a.maskLen)) = expectedIps k2 ∧
        (ws.foldl epcStep s).assigns.length = 2 * k2 ∧
        (ws.foldl epcStep s).base = (ndnNetBase0 + 4 * k2) % 2 ^ 32 := by
  induction ws with
  | nil => exact fun s k h1 h2 h3 => ⟨k, h1, h2, h3⟩
  | cons l ws ih =>
    intro s k h1 h2 h3
    obtain ⟨k2, g1, g2, g3⟩ := epcStep_expected l h1 h2 h3
    simpa using ih (epcStep s l) k2 g1 g2 g3

/-- C1: the automatic assignment allocates sequential /30 pairs from the
fixed base `10.0.0.0`: some number `k` of pairs is allocated, the `setIP`
calls carry exactly the addresses of `expectedIps k` — pair `n` gets
`10.0.0.0 + (4n+1)` and `10.0.0.0 + (4n+2)` with mask /30 — and the base
has advanced by exactly 4 addresses per allocated pair. -/
theorem epc_sequential_slash30_subnets (walk : List Link) :
    ∃ k, (ethernetPairConnectivity walk).assigns.length = 2 * k ∧
      (ethernetPairConnectivity walk).assigns.map (fun a => (a.ip, a.maskLen)) =
        expectedIps k ∧
      (ethernetPairConnectivity walk).base = (ndnNetBase0 + 4 * k) % 2 ^ 32 := by
  obtain ⟨k, g1, g2, g3⟩ :=
    epcFold_expected walk ⟨[], [], ndnNetBase0⟩ 0 rfl rfl (by decide)
  exact ⟨k, g2, g1, g3⟩

/-- Two links share an endpoint interface (interfaces are compared by
identity, as Python's `in` does on the `interfaces` list). -/
def linksShare (l m : Link) : Prop :=
  l.intf1 = m.intf1 ∨ l.intf1 = m.intf2 ∨ l.intf2 = m.intf1 ∨ l.intf2 = m.intf2

instance (l m : Link) : Decidable (linksShare l m) := by
  unfold linksShare
  infer_instance

/-- Loop-state well-formedness: the `interfaces` list has no duplicates
and is exactly the list of interfaces assigned so far, in order. -/
def epcGood (s : EPCState) : Prop :=
  s.interfaces.Nodup ∧ s.assigns.map IpAssign.intf = s.interfaces

/-- Provenance: every recorded interface belongs to some non-switch link
of the universe `U`, and both interfaces of that link were recorded. -/
def epcProv (U : List Link) (s : EPCState) : Prop :=
  ∀ x ∈ s.interfaces, ∃ l, l ∈ U ∧ l.sw1 = false ∧ l.sw2 = false ∧
    (x = l.intf1 ∨ x = l.intf2) ∧ l.intf1 ∈ s.interfaces ∧ l.intf2 ∈ s.interfaces

lemma epcStep_switch {s : EPCState} {l : Link} (h : (l.sw1 || l.sw2) = true) :
    epcStep s l = s := by
  simp [epcStep, h]

lemma epcStep_seen {s : EPCState} {l : Link}
    (h : ¬(l.intf1 ∉ s.interfaces ∧ l.intf2 ∉ s.interfaces)) :
    epcStep s l = s := by
  unfold epcStep
  by_cases hsw : (l.sw1 || l.sw2) = true
  · rw [if_pos hsw]
  · rw [if_neg hsw, if_neg h]

lemma epcStep_alloc {s : EPCState} {l : Link} (hsw : (l.sw1 || l.sw2) = false)
    (h : l.intf1 ∉ s.interfaces ∧ l.intf2 ∉ s.interfaces) :
    epcStep s l =
      { interfaces := s.interfaces ++ [l.intf1, l.intf2]
        assigns := s.assigns ++
          [⟨l.intf1, (s.base + 1) % 2 ^ 32, 30⟩, ⟨l.intf2, (s.base + 2) % 2 ^ 32, 30⟩]
        base := (s.base + 4) % 2 ^ 32 } := by
  unfold epcStep
  rw [if_neg (by simp [hsw]), if_pos h]

lemma epc_fold_ownership (U : List Link)
    (H1 : ∀ l ∈ U, l.intf1 ≠ l.intf2)
    (H2 : ∀ l ∈ U, ∀ m ∈ U, linksShare l m → l = m) :
    ∀ (ws : List Link) (s : EPCState), (∀ l ∈ ws, l ∈ U) →
      epcGood s → epcProv U s →
      epcGood (ws.foldl epcStep s) ∧ epcProv U (ws.foldl epcStep s) ∧
      (∀ x ∈ s.interfaces, x ∈ (ws.foldl epcStep s).interfaces) ∧
      (∀ l ∈ ws, l.sw1 = false → l.sw2 = false →
        l.intf1 ∈ (ws.foldl epcStep s).interfaces ∧
        l.intf2 ∈ (ws.foldl epcStep s).interfaces) := by
  intro ws
  induction ws with
  | nil =>
    intro s _ hgood hprov
    refine ⟨hgood, hprov, fun x hx => hx, ?_⟩
    intro m hm
    exact absurd hm (List.not_mem_nil m)
  | cons l0 ws ih =>
    intro s hsub hgood hprov
    have hl0U : l0 ∈ U := hsub l0 (List.mem_cons_self l0 ws)
    have hsubtl : ∀ l ∈ ws, l ∈ U := fun l hl => hsub l (List.mem_cons_of_mem _ hl)
    simp only [List.foldl_cons]
    by_cases hsw : (l0.sw1 || l0.sw2) = true
    · rw [epcStep_switch hsw]
      obtain ⟨g1, g2, g3, g4⟩ := ih s hsubtl hgood hprov
      refine ⟨g1, g2, g3, ?_⟩
      intro m hm hm1 hm2
      rcases List.mem_cons.1 hm with rfl | hm'
      · rw [hm1, hm2] at hsw
        cases hsw
      · exact g4 m hm' hm1 hm2
    · have hsw' : (l0.sw1 || l0.sw2) = false := by simpa using hsw
      have h1sw : l0.sw1 = false := by
        rcases Bool.or_eq_false_iff.1 hsw' with ⟨h, _⟩
        exact h
      have h2sw : l0.sw2 = false := by
        rcases Bool.or_eq_false_iff.1 hsw' with ⟨_, h⟩
        exact h
      by_cases hfresh : l0.intf1 ∉ s.interfaces ∧ l0.intf2 ∉ s.interfaces
      · rw [epcStep_alloc hsw' hfresh]
        have hgood' : epcGood
            { interfaces := s.interfaces ++ [l0.intf1, l0.intf2]
              assigns := s.assigns ++
                [⟨l0.intf1, (s.base + 1) % 2 ^ 32, 30⟩,
                 ⟨l0.intf2, (s.base + 2) % 2 ^ 32, 30⟩]
              base := (s.base + 4) % 2 ^ 32 } := by
          constructor
          · rw [List.nodup_append]
            refine ⟨hgood.1, by simp [H1 l0 hl0U], ?_⟩
            intro a ha hb
            simp only [List.mem_cons, List.mem_singleton, List.not_mem_nil,
              or_false] at hb
            rcases hb with rfl | rfl
            · exact hfresh.1 ha
            · exact hfresh.2 ha
          · dsimp only
            rw [List.map_append, hgood.2]
            rfl
        have hprov' : epcProv U
            { interfaces := s.interfaces ++ [l0.intf1, l0.intf2]
              assigns := s.assigns ++
                [⟨l0.intf1, (s.base + 1) % 2 ^ 32, 30⟩,
                 ⟨l0.intf2, (s.base + 2) % 2 ^ 32, 30⟩]
              base := (s.base + 4) % 2 ^ 32 } := by
          intro x hx
          rcases List.mem_append.1 hx with hx' | hx'
          · obtain ⟨m, hmU, hmsw1, hmsw2, hmx, hm4, hm5⟩ := hprov x hx'
            exact ⟨m, hmU, hmsw1, hmsw2, hmx,
              List.mem_append_left _ hm4, List.mem_append_left _ hm5⟩
          · refine ⟨l0, hl0U, h1sw, h2sw, ?_, ?_, ?_⟩
            · simpa using hx'
            · exact List.mem_append_right _ (by simp)
            · exact List.mem_append_right _ (by simp)
        obtain ⟨g1, g2, g3, g4⟩ := ih _ hsubtl hgood' hprov'
        refine ⟨g1, g2, ?_, ?_⟩
        · intro x hx
          exact g3 x (List.mem_append_left _ hx)
        · intro m hm hm1 hm2
          rcases List.mem_cons.1 hm with rfl | hm'
          · exact ⟨g3 _ (List.mem_append_right _ (by simp)),
              g3 _ (List.mem_append_right _ (by simp))⟩
          · exact g4 m hm' hm1 hm2
      · rw [epcStep_seen hfresh]
        obtain ⟨g1, g2, g3, g4⟩ := ih s hsubtl hgood hprov
        refine ⟨g1, g2, g3, ?_⟩
        intro m hm hm1 hm2
        rcases List.mem_cons.1 hm with rfl | hm'
        · have hmem : m.intf1 ∈ s.interfaces ∨ m.intf2 ∈ s.interfaces := by
            by_contra hc
            push_neg at hc
            exact hfresh ⟨hc.1, hc.2⟩
          have hboth : m.intf1 ∈ s.interfaces ∧ m.intf2 ∈ s.interfaces := by
            rcases hmem with hx | hx
            · obtain ⟨m', hmU', _, _, heq, hm4, hm5⟩ := hprov _ hx
              have hmm : m = m' := by
                refine H2 m hl0U m' hmU' ?_
                rcases heq with h | h
                · exact Or.inl h
                · exact Or.inr (Or.inl h)
              rw [hmm]
              exact ⟨hm4, hm5⟩
            · obtain ⟨m', hmU', _, _, heq, hm4, hm5⟩ := hprov _ hx
              have hmm : m = m' := by
                refine H2 m hl0U m' hmU' ?_
                rcases heq with h | h
                · exact Or.inr (Or.inr (Or.inl h))
                · exact Or.inr (Or.inr (Or.inr h))
              rw [hmm]
              exact ⟨hm4, hm5⟩
          exact ⟨g3 _ hboth.1, g3 _ hboth.2⟩
        · exact g4 m hm' hm1 hm2

/-- C8: although the interface walk can visit the same link twice (once
from each endpoint host), a link whose interfaces are already recorded is
skipped, so — for a walk whose links have two distinct interfaces and do
not share interfaces across distinct links — the issued `setIP` calls
target pairwise-distinct interfaces, and each interface of every visited
non-switch link is assigned exactly once. -/
theorem epc_link_allocated_exactly_once (walk : List Link)
    (H1 : ∀ l ∈ walk, l.intf1 ≠ l.intf2)
    (H2 : ∀ l ∈ walk, ∀ m ∈ walk, linksShare l m → l = m) :
    ((ethernetPairConnectivity walk).assigns.map IpAssign.intf).Nodup ∧
    ∀ l ∈ walk, l.sw1 = false → l.sw2 = false →
      ((ethernetPairConnectivity walk).assigns.map IpAssign.intf).count l.intf1 = 1 ∧
      ((ethernetPairConnectivity walk).assigns.map IpAssign.intf).count l.intf2 = 1 := by
  obtain ⟨⟨hnd, hmap⟩, _, _, hmem⟩ :=
    epc_fold_ownership walk H1 H2 walk ⟨[], [], ndnNetBase0⟩ (fun l hl => hl)
      ⟨List.nodup_nil, rfl⟩ (fun x hx => absurd hx (List.not_mem_nil x))
  constructor
  · unfold ethernetPairConnectivity
    rw [hmap]
    exact hnd
  · intro l hl h1 h2
    obtain ⟨hbm1, hbm2⟩ := hmem l hl h1 h2
    unfold ethernetPairConnectivity
    rw [hmap]
    exact ⟨List.count_eq_one_of_mem hnd hbm1, List.count_eq_one_of_mem hnd hbm2⟩

theorem epc_link_allocated_exactly_once_witness :
    ((ethernetPairConnectivity
        [⟨1, 2, false, false⟩, ⟨1, 2, false, false⟩]).assigns.map
      IpAssign.intf).count 1 = 1 :=
  ((epc_link_allocated_exactly_once [⟨1, 2, false, false⟩, ⟨1, 2, false, false⟩]
      (by decide) (by decide)).2 ⟨1, 2, false, false⟩ (by decide) rfl rfl).1

/-! ### Theorems: topology parser -/

lemma exMap_ok_length {α β : Type} {f : α → Except PyErr β} :
    ∀ {xs : List α} {ys : List β}, exMap f xs = .ok ys → ys.length = xs.length := by
  intro xs
  induction xs with
  | nil =>
    intro ys h
    simp only [exMap] at h
    injection h with h2
    rw [← h2]
    rfl
  | cons a as ih =>
    intro ys h
    simp only [exMap] at h
    cases hfa : f a with
    | error e =>
      simp only [hfa] at h
      exact Except.noConfusion h
    | ok b =>
      simp only [hfa] at h
      cases hrec : exMap f as with
      | error e =>
        simp only [hrec] at h
        exact Except.noConfusion h
      | ok bs =>
        simp only [hrec] at h
        injection h with h2
        rw [← h2]
        simp [ih hrec]

lemma exMap_ok_zip {α β : Type} {f : α → Except PyErr β} :
    ∀ {xs : List α} {ys : List β}, exMap f xs = .ok ys →
      ∀ p ∈ xs.zip ys, f p.1 = .ok p.2 := by
  intro xs
  induction xs with
  | nil =>
    intro ys h p hp
    simp at hp
  | cons a as ih =>
    intro ys h p hp
    simp only [exMap] at h
    cases hfa : f a with
    | error e =>
      simp only [hfa] at h
      exact Except.noConfusion h
    | ok b =>
      simp only [hfa] at h
      cases hrec : exMap f as with
      | error e =>
        simp only [hrec] at h
        exact Except.noConfusion h
      | ok bs =>
        simp only [hrec] at h
        injection h with h2
        rw [← h2] at hp
        rcases List.mem_cons.1 hp with rfl | hp'
        · exact hfa
        · exact ih hrec p hp'

lemma exMap_ok_mem {α β : Type} {f : α → Except PyErr β} :
    ∀ {xs : List α} {ys : List β}, exMap f xs = .ok ys →
      ∀ y ∈ ys, ∃ x ∈ xs, f x = .ok y := by
  intro xs
  induction xs with
  | nil =>
    intro ys h y hy
    simp only [exMap] at h
    injection h with h2
    rw [← h2] at hy
    simp at hy
  | cons a as ih =>
    intro ys h y hy
    simp only [exMap] at h
    cases hfa : f a with
    | error e =>
      simp only [hfa] at h
      exact Except.noConfusion h
    | ok b =>
      simp only [hfa] at h
      cases hrec : exMap f as with
      | error e =>
        simp only [hrec] at h
        exact Except.noConfusion h
      | ok bs =>
        simp only [hrec] at h
        injection h with h2
        rw [← h2] at hy
        rcases List.mem_cons.1 hy with rfl | hy'
        · exact ⟨a, List.mem_cons_self a as, hfa⟩
        · obtain ⟨x, hx, hfx⟩ := ih hrec y hy'
          exact ⟨x, List.mem_cons_of_mem a hx, hfx⟩

/-- A successful `nodesLoop` run issues exactly the per-entry host
operations: the duplicate check, when it does not fire, does not alter
the trace. -/
lemma nodesLoop_ok_exMap :
    ∀ {ns : List (String × String)} {coords : List String} {hs : List TopoOp},
      nodesLoop ns coords = .ok hs → exMap hostOpOf ns = .ok hs := by
  intro ns
  induction ns with
  | nil =>
    intro coords hs h
    simp only [nodesLoop] at h
    simpa [exMap] using h
  | cons it rest ih =>
    intro coords hs h
    simp only [nodesLoop] at h
    by_cases hdup : it.2 ∈ coords ∧ it.2 ≠ "_"
    · rw [if_pos hdup] at h
      exact Except.noConfusion h
    · rw [if_neg hdup] at h
      cases hop : hostOpOf it with
      | error e =>
        simp only [hop] at h
        exact Except.noConfusion h
      | ok op =>
        simp only [hop] at h
        cases hrec : nodesLoop rest (coords ++ [it.2]) with
        | error e =>
          simp only [hrec] at h
          exact Except.noConfusion h
        | ok ops =>
          simp only [hrec] at h
          simp only [exMap, hop, ih hrec]
          exact h

/-- C5: a successful `processTopo` run issues exactly one `addHost` per
`nodes` entry, one `addSwitch` per `switches` entry, and one `addLink`
per `links` entry, in section order, each call built from that entry's
key and typed parameters (`hostOpOf` / `linkOpOf`). -/
theorem processTopo_one_call_per_entry (cfg : Config) (ops : List TopoOp)
    (ns ls : List (String × String))
    (hok : processTopo cfg = .ok ops)
    (hns : configItems cfg "nodes" = .ok ns)
    (hls : configItems cfg "links" = .ok ls) :
    ∃ hostOps linkOps,
      exMap hostOpOf ns = .ok hostOps ∧
      exMap linkOpOf ls = .ok linkOps ∧
      ops = hostOps ++ switchOps cfg ++ linkOps ∧
      hostOps.length = ns.length ∧
      linkOps.length = ls.length ∧
      (∀ p ∈ ns.zip hostOps, hostOpOf p.1 = .ok p.2) ∧
      (∀ p ∈ ls.zip linkOps, linkOpOf p.1 = .ok p.2) ∧
      ∀ sws, configItems cfg "switches" = .ok sws →
        switchOps cfg = sws.map (fun it => .addSwitch (pyIndex0 (pySplit it.1 ':'))) := by
  unfold processTopo at hok
  simp only [hns, hls] at hok
  cases hnl : nodesLoop ns [] with
  | error e =>
    simp only [hnl] at hok
    exact Except.noConfusion hok
  | ok hostOps =>
    simp only [hnl] at hok
    cases hex : exMap linkOpOf ls with
    | error e =>
      simp only [hex] at hok
      exact Except.noConfusion hok
    | ok linkOps =>
      simp only [hex] at hok
      injection hok with h2
      refine ⟨hostOps, linkOps, nodesLoop_ok_exMap hnl, rfl, h2.symm,
        exMap_ok_length (nodesLoop_ok_exMap hnl), exMap_ok_length hex,
        exMap_ok_zip (nodesLoop_ok_exMap hnl), exMap_ok_zip hex, ?_⟩
      intro sws hsw
      unfold switchOps
      rw [hsw]

theorem processTopo_one_call_per_entry_witness :
    ∃ hostOps linkOps,
      exMap hostOpOf [("a", "_"), ("b", "_")] = .ok hostOps ∧
      exMap linkOpOf [("a:b", "bw=10 delay=5ms")] = .ok linkOps ∧
      [TopoOp.addHost "a" [], TopoOp.addHost "b" [], TopoOp.addSwitch "s1",
        TopoOp.addLink "a" "b" [("bw", PVal.int 10), ("delay", PVal.str "5ms")]] =
        hostOps ++
          switchOps [("nodes", [("a", "_"), ("b", "_")]), ("switches", [("s1", "_")]),
            ("links", [("a:b", "bw=10 delay=5ms")])] ++ linkOps ∧
      hostOps.length = [("a", "_"), ("b", "_")].length ∧
      linkOps.length = [("a:b", "bw=10 delay=5ms")].length ∧
      (∀ p ∈ [("a", "_"), ("b", "_")].zip hostOps, hostOpOf p.1 = .ok p.2) ∧
      (∀ p ∈ [("a:b", "bw=10 delay=5ms")].zip linkOps, linkOpOf p.1 = .ok p.2) ∧
      ∀ sws, configItems [("nodes", [("a", "_"), ("b", "_")]), ("switches", [("s1", "_")]),
          ("links", [("a:b", "bw=10 delay=5ms")])] "switches" = .ok sws →
        switchOps [("nodes", [("a", "_"), ("b", "_")]), ("switches", [("s1", "_")]),
            ("links", [("a:b", "bw=10 delay=5ms")])] =
          sws.map (fun it => .addSwitch (pyIndex0 (pySplit it.1 ':'))) :=
  processTopo_one_call_per_entry
    [("nodes", [("a", "_"), ("b", "_")]), ("switches", [("s1", "_")]),
      ("links", [("a:b", "bw=10 delay=5ms")])]
    [TopoOp.addHost "a" [], TopoOp.addHost "b" [], TopoOp.addSwitch "s1",
      TopoOp.addLink "a" "b" [("bw", PVal.int 10), ("delay", PVal.str "5ms")]]
    [("a", "_"), ("b", "_")] [("a:b", "bw=10 delay=5ms")] rfl rfl rfl

/-- Inversion of a successful `processTopo` run into its section parts. -/
lemma processTopo_ok_parts {cfg : Config} {ops : List TopoOp}
    (hok : processTopo cfg = .ok ops) :
    ∃ ns hostOps ls linkOps,
      configItems cfg "nodes" = .ok ns ∧ nodesLoop ns [] = .ok hostOps ∧
      configItems cfg "links" = .ok ls ∧ exMap linkOpOf ls = .ok linkOps ∧
      ops = hostOps ++ switchOps cfg ++ linkOps := by
  unfold processTopo at hok
  cases hns : configItems cfg "nodes" with
  | error e =>
    simp only [hns] at hok
    exact Except.noConfusion hok
  | ok ns =>
    simp only [hns] at hok
    cases hnl : nodesLoop ns [] with
    | error e =>
      simp only [hnl] at hok
      exact Except.noConfusion hok
    | ok hostOps =>
      simp only [hnl] at hok
      cases hls : configItems cfg "links" with
      | error e =>
        simp only [hls] at hok
        exact Except.noConfusion hok
      | ok ls =>
        simp only [hls] at hok
        cases hex : exMap linkOpOf ls with
        | error e =>
          simp only [hex] at hok
          exact Except.noConfusion hok
        | ok linkOps =>
          simp only [hex] at hok
          injection hok with h2
          exact ⟨ns, hostOps, ls, linkOps, rfl, hnl, rfl, hex, h2.symm⟩

lemma hostOpOf_ok_shape {it : String × String} {op : TopoOp}
    (h : hostOpOf it = .ok op) :
    ∃ ps, paramsOfTokens (pySplit it.2 ' ') [] = .ok ps ∧
      op = TopoOp.addHost (pyIndex0 (pySplit it.1 ':')) ps := by
  unfold hostOpOf at h
  cases hps : paramsOfTokens (pySplit it.2 ' ') [] with
  | error e =>
    simp only [hps] at h
    exact Except.noConfusion h
  | ok ps =>
    simp only [hps] at h
    injection h with h2
    exact ⟨ps, rfl, h2.symm⟩

lemma linkOpOf_ok_shape {it : String × String} {op : TopoOp}
    (h : linkOpOf it = .ok op) :
    ∃ ps a b rest, linkParamsLoop (pySplit it.2 ' ') [] = .ok ps ∧
      pySplit it.1 ':' = a :: b :: rest ∧ op = TopoOp.addLink a b ps := by
  unfold linkOpOf at h
  cases hps : linkParamsLoop (pySplit it.2 ' ') [] with
  | error e =>
    simp only [hps] at h
    exact Except.noConfusion h
  | ok ps =>
    simp only [hps] at h
    cases hsp : pySplit it.1 ':' with
    | nil =>
      simp only [hsp] at h
      exact Except.noConfusion h
    | cons a tl =>
      cases tl with
      | nil =>
        simp only [hsp] at h
        exact Except.noConfusion h
      | cons b rest =>
        simp only [hsp] at h
        injection h with h2
        exact ⟨ps, a, b, rest, rfl, rfl, h2.symm⟩

lemma dictInsert_mem {α : Type} {ps : List (String × α)} {k0 : String} {v0 : α}
    {p : String × α} (hp : p ∈ dictInsert ps k0 v0) : p = (k0, v0) ∨ p ∈ ps := by
  unfold dictInsert at hp
  split at hp
  · obtain ⟨q, hq, hpe⟩ := List.mem_map.1 hp
    by_cases hk : q.1 = k0
    · rw [if_pos hk] at hpe
      exact Or.inl hpe.symm
    · rw [if_neg hk] at hpe
      exact Or.inr (hpe ▸ hq)
  · rcases List.mem_append.1 hp with h | h
    · exact Or.inr h
    · simp only [List.mem_singleton] at h
      exact Or.inl h

lemma linkParamsLoop_mem :
    ∀ {ts : List String} {acc ps : List (String × PVal)} {k : String} {v : PVal},
      linkParamsLoop ts acc = .ok ps → (k, v) ∈ ps →
      (k, v) ∈ acc ∨ ∃ t, linkParamOf t = .ok (k, v) := by
  intro ts
  induction ts with
  | nil =>
    intro acc ps k v h hm
    simp only [linkParamsLoop] at h
    injection h with h2
    subst h2
    exact Or.inl hm
  | cons t ts ih =>
    intro acc ps k v h hm
    simp only [linkParamsLoop] at h
    cases hlp : linkParamOf t with
    | error e =>
      simp only [hlp] at h
      exact Except.noConfusion h
    | ok kv =>
      simp only [hlp] at h
      rcases ih h hm with hin | hex
      · rcases dictInsert_mem hin with heq | hin'
        · right
          refine ⟨t, ?_⟩
          rw [heq, Prod.mk.eta]
          exact hlp
        · exact Or.inl hin'
      · exact Or.inr hex

lemma linkParamOf_shape {t : String} {k : String} {v : PVal}
    (h : linkParamOf t = .ok (k, v)) :
    ((k = "bw" ∨ k = "jitter" ∨ k = "max_queue_size") → ∃ n, v = PVal.int n) ∧
    (k = "loss" → ∃ s, v = PVal.float s) ∧
    (k ≠ "bw" → k ≠ "jitter" → k ≠ "max_queue_size" → k ≠ "loss" →
      ∃ s, v = PVal.str s) := by
  unfold linkParamOf at h
  cases hsp : pySplit t '=' with
  | nil =>
    simp only [hsp] at h
    exact Except.noConfusion h
  | cons k0 tl =>
    cases tl with
    | nil =>
      simp only [hsp] at h
      exact Except.noConfusion h
    | cons v0 rest =>
      simp only [hsp] at h
      by_cases hik : k0 = "bw" ∨ k0 = "jitter" ∨ k0 = "max_queue_size"
      · rw [if_pos hik] at h
        cases hpi : pyInt v0 with
        | none =>
          simp only [hpi] at h
          exact Except.noConfusion h
        | some n =>
          simp only [hpi] at h
          injection h with h2
          injection h2 with hk hv
          subst hk
          subst hv
          refine ⟨fun _ => ⟨n, rfl⟩, ?_, ?_⟩
          · intro hkl
            exfalso
            rcases hik with hx | hx | hx <;> rw [hx] at hkl <;>
              exact absurd hkl (by decide)
          · intro h1 h2 h3 _
            rcases hik with hx | hx | hx
            · exact absurd hx h1
            · exact absurd hx h2
            · exact absurd hx h3
      · rw [if_neg hik] at h
        by_cases hkl : k0 = "loss"
        · rw [if_pos hkl] at h
          injection h with h2
          injection h2 with hk hv
          subst hk
          subst hv
          exact ⟨fun hik' => absurd hik' hik, fun _ => ⟨v0, rfl⟩,
            fun _ _ _ h4 => absurd hkl h4⟩
        · rw [if_neg hkl] at h
          injection h with h2
          injection h2 with hk hv
          subst hk
          subst hv
          exact ⟨fun hik' => absurd hik' hik, fun hkl' => absurd hkl' hkl,
            fun _ _ _ _ => ⟨v0, rfl⟩⟩

/-- C4: in every link built by a successful `processTopo` run, parameter
values keyed `bw`, `jitter`, `max_queue_size` were coerced with `int()`,
the value keyed `loss` was coerced with `float()`, and every other
parameter value was passed through as the literal string. -/
theorem processTopo_link_value_coercion (cfg : Config) (ops : List TopoOp)
    (a b : String) (ps : List (String × PVal)) (k : String) (v : PVal)
    (hok : processTopo cfg = .ok ops)
    (hmem : TopoOp.addLink a b ps ∈ ops)
    (hkv : (k, v) ∈ ps) :
    ((k = "bw" ∨ k = "jitter" ∨ k = "max_queue_size") → ∃ n, v = PVal.int n) ∧
    (k = "loss" → ∃ s, v = PVal.float s) ∧
    (k ≠ "bw" → k ≠ "jitter" → k ≠ "max_queue_size" → k ≠ "loss" →
      ∃ s, v = PVal.str s) := by
  obtain ⟨ns, hostOps, ls, linkOps, hns, hnl, hls, hex, rfl⟩ := processTopo_ok_parts hok
  rcases List.mem_append.1 hmem with h12 | hmem2
  · rcases List.mem_append.1 h12 with hh | hsw
    · obtain ⟨it, _, hit⟩ := exMap_ok_mem (nodesLoop_ok_exMap hnl) _ hh
      obtain ⟨ps', _, heq⟩ := hostOpOf_ok_shape hit
      exact TopoOp.noConfusion heq
    · unfold switchOps at hsw
      cases hci : configItems cfg "switches" with
      | error e =>
        simp only [hci] at hsw
        exact absurd hsw (List.not_mem_nil _)
      | ok items =>
        simp only [hci] at hsw
        obtain ⟨it, _, heq⟩ := List.mem_map.1 hsw
        exact TopoOp.noConfusion heq
  · obtain ⟨it, _, hit⟩ := exMap_ok_mem hex _ hmem2
    obtain ⟨ps', a', b', rest, hpl, hsp, heq⟩ := linkOpOf_ok_shape hit
    injection heq with e1 e2 e3
    subst e3
    rcases linkParamsLoop_mem hpl hkv with hin | ⟨t, ht⟩
    · exact absurd hin (List.not_mem_nil _)
    · exact linkParamOf_shape ht

theorem processTopo_link_value_coercion_witness :
    (("bw" = "bw" ∨ "bw" = "jitter" ∨ "bw" = "max_queue_size") →
      ∃ n, PVal.int 10 = PVal.int n) ∧
    ("bw" = "loss" → ∃ s, PVal.int 10 = PVal.float s) ∧
    ("bw" ≠ "bw" → "bw" ≠ "jitter" → "bw" ≠ "max_queue_size" → "bw" ≠ "loss" →
      ∃ s, PVal.int 10 = PVal.str s) :=
  processTopo_link_value_coercion
    [("nodes", [("a", "_"), ("b", "_")]), ("links", [("a:b", "bw=10 delay=5ms loss=1.5")])]
    [TopoOp.addHost "a" [], TopoOp.addHost "b" [],
      TopoOp.addLink "a" "b"
        [("bw", PVal.int 10), ("delay", PVal.str "5ms"), ("loss", PVal.float "1.5")]]
    "a" "b" [("bw", PVal.int 10), ("delay", PVal.str "5ms"), ("loss", PVal.float "1.5")]
    "bw" (PVal.int 10) rfl (by simp) (by simp)

/-- C3 counterexample: two distinct node entries carry the same
coordinate value (both `'_'`), yet `processTopo` returns a topology
normally — the duplicate check explicitly exempts the value `'_'`. -/
theorem processTopo_dup_underscore_no_exit :
    processTopo [("nodes", [("a", "_"), ("b", "_")]), ("links", [])] =
      .ok [TopoOp.addHost "a" [], TopoOp.addHost "b" []] ∧
    processTopo [("nodes", [("a", "_"), ("b", "_")]), ("links", [])] ≠
      .error (.systemExit 1) := by
  constructor
  · rfl
  · intro h
    rw [show processTopo [("nodes", [("a", "_"), ("b", "_")]), ("links", [])] =
        .ok [TopoOp.addHost "a" [], TopoOp.addHost "b" []] from rfl] at h
    exact Except.noConfusion h

/-- If some entry value `v ≠ '_'` occurs twice in the remaining entries
(or once while already recorded in `coordinates`), and every entry's
parameters parse, the nodes loop aborts with `sys.exit(1)`. -/
lemma nodesLoop_dup_exit :
    ∀ (ns : List (String × String)) (coords : List String) (v : String),
      v ≠ "_" →
      (∀ it ∈ ns, ∃ op, hostOpOf it = .ok op) →
      (2 ≤ (ns.map Prod.snd).count v ∨
        (v ∈ coords ∧ 1 ≤ (ns.map Prod.snd).count v)) →
      nodesLoop ns coords = .error (.systemExit 1) := by
  intro ns
  induction ns with
  | nil =>
    intro coords v hv hwf hcase
    exfalso
    simp only [List.map_nil, List.count_nil] at hcase
    rcases hcase with h | ⟨_, h⟩ <;> omega
  | cons it rest ih =>
    intro coords v hv hwf hcase
    by_cases hdup : it.2 ∈ coords ∧ it.2 ≠ "_"
    · simp only [nodesLoop, if_pos hdup]
    · obtain ⟨op, hop⟩ := hwf it (List.mem_cons_self it rest)
      have hcnt : ((it :: rest).map Prod.snd).count v =
          (rest.map Prod.snd).count v + if it.2 = v then 1 else 0 := by
        simp [List.count_cons]
      have hrec : nodesLoop rest (coords ++ [it.2]) = .error (.systemExit 1) := by
        apply ih (coords ++ [it.2]) v hv
          (fun x hx => hwf x (List.mem_cons_of_mem it hx))
        by_cases hev : it.2 = v
        · have hnotin : v ∉ coords := by
            intro hin
            exact hdup ⟨by rw [hev]; exact hin, by rw [hev]; exact hv⟩
          right
          constructor
          · exact List.mem_append_right _ (by simp [hev])
          · rcases hcase with h | ⟨hin, _⟩
            · rw [hcnt, if_pos hev] at h
              omega
            · exact absurd hin hnotin
        · rcases hcase with h | ⟨hin, hc1⟩
          · left
            rw [hcnt, if_neg hev] at h
            omega
          · right
            refine ⟨List.mem_append_left _ hin, ?_⟩
            rw [hcnt, if_neg hev] at hc1
            omega
      simp only [nodesLoop, if_neg hdup, hop, hrec]

/-- C3 (amended): for every topology file whose node entries' parameters
all parse, if two distinct node entries carry the same coordinate value
*other than `'_'`* (the value `'_'` is exempt from duplicate detection),
`processTopo` reports the fatal duplicate and exits with status 1 instead
of returning a topology. -/
theorem processTopo_duplicate_coordinate_exits (cfg : Config)
    (ns : List (String × String)) (v : String)
    (hns : configItems cfg "nodes" = .ok ns)
    (hv : v ≠ "_")
    (hdup : 2 ≤ (ns.map Prod.snd).count v)
    (hwf : ∀ it ∈ ns, ∃ op, hostOpOf it = .ok op) :
    processTopo cfg = .error (.systemExit 1) := by
  unfold processTopo
  simp only [hns, nodesLoop_dup_exit ns [] v hv hwf (Or.inl hdup)]

theorem processTopo_duplicate_coordinate_exits_witness :
    processTopo [("nodes", [("a", "c=1"), ("b", "c=1")]), ("links", [])] =
      .error (.systemExit 1) :=
  processTopo_duplicate_coordinate_exits
    [("nodes", [("a", "c=1"), ("b", "c=1")]), ("links", [])]
    [("a", "c=1"), ("b", "c=1")] "c=1" rfl (by decide) (by decide)
    (by
      intro it hit
      rcases List.mem_cons.1 hit with rfl | hit'
      · exact ⟨TopoOp.addHost "a" [("c", "1")], rfl⟩
      · rcases List.mem_cons.1 hit' with rfl | hit''
        · exact ⟨TopoOp.addHost "b" [("c", "1")], rfl⟩
        · exact absurd hit'' (List.not_mem_nil it))

/-- C9: in the nodes section, the host name is the key up to the first
`:`; a value of `'_'` is exempt from duplicate detection, `'_'` tokens
are skipped when building parameters, and an entry whose whole value is
`'_'` yields an `addHost` with an empty parameter dictionary — so any
number of nodes may share the value `'_'`. -/
theorem nodes_underscore_semantics :
    (∀ (key : String) (rest : List (String × String)) (coords : List String),
      nodesLoop ((key, "_") :: rest) coords =
        Except.map
          (fun ops => TopoOp.addHost (pyIndex0 (pySplit key ':')) [] :: ops)
          (nodesLoop rest (coords ++ ["_"]))) ∧
    (∀ (ts : List String) (acc : List (String × String)),
      paramsOfTokens ts acc = paramsOfTokens (ts.filter (fun t => t ≠ "_")) acc) ∧
    (∀ (entries : List (String × String)) (coords : List String),
      (∀ it ∈ entries, it.2 = "_") →
      nodesLoop entries coords =
        .ok (entries.map (fun it => TopoOp.addHost (pyIndex0 (pySplit it.1 ':')) []))) := by
  have hop0 : ∀ key : String,
      hostOpOf (key, "_") = .ok (TopoOp.addHost (pyIndex0 (pySplit key ':')) []) :=
    fun key => rfl
  refine ⟨?_, ?_, ?_⟩
  · intro key rest coords
    cases hrec : nodesLoop rest (coords ++ ["_"]) with
    | error e =>
      simp only [nodesLoop]
      rw [if_neg (by simp)]
      simp only [hop0, hrec, Except.map]
    | ok ops =>
      simp only [nodesLoop]
      rw [if_neg (by simp)]
      simp only [hop0, hrec, Except.map]
  · intro ts
    induction ts with
    | nil => intro acc; rfl
    | cons t ts ih =>
      intro acc
      by_cases ht : t = "_"
      · subst ht
        simp only [paramsOfTokens, if_pos]
        rw [show ("_" :: ts).filter (fun x => x ≠ "_") = ts.filter (fun x => x ≠ "_")
          from by simp]
        exact ih acc
      · simp only [paramsOfTokens]
        rw [if_neg ht]
        rw [show (t :: ts).filter (fun x => x ≠ "_") = t :: ts.filter (fun x => x ≠ "_")
          from by simp [ht]]
        simp only [paramsOfTokens]
        rw [if_neg ht]
        cases hsp : pySplit t '=' with
        | nil => simp [hsp]
        | cons k tl =>
          cases tl with
          | nil => simp [hsp]
          | cons v r =>
            simp only [hsp]
            exact ih (dictInsert acc k v)
  · intro entries
    induction entries with
    | nil => intro coords h; rfl
    | cons it rest ih =>
      intro coords h
      have hit : it.2 = "_" := h it (List.mem_cons_self it rest)
      have hop : hostOpOf it = .ok (TopoOp.addHost (pyIndex0 (pySplit it.1 ':')) []) := by
        unfold hostOpOf
        rw [hit]
        rfl
      simp only [nodesLoop]
      rw [if_neg (by rw [hit]; simp)]
      rw [hop]
      rw [ih (coords ++ [it.2]) (fun x hx => h x (List.mem_cons_of_mem it hx))]
      simp

theorem nodes_underscore_semantics_witness :
    nodesLoop [("a", "_"), ("b", "_")] [] =
      .ok [TopoOp.addHost "a" [], TopoOp.addHost "b" []] :=
  nodes_underscore_semantics.2.2 [("a", "_"), ("b", "_")] [] (by decide)

lemma paramsOfTokens_ne_noSection :
    ∀ (ts : List String) (acc : List (String × String)) (s : String),
      paramsOfTokens ts acc ≠ .error (.noSection s) := by
  intro ts
  induction ts with
  | nil =>
    intro acc s h
    exact Except.noConfusion h
  | cons t ts ih =>
    intro acc s h
    simp only [paramsOfTokens] at h
    by_cases ht : t = "_"
    · rw [if_pos ht] at h
      exact ih acc s h
    · rw [if_neg ht] at h
      cases hsp : pySplit t '=' with
      | nil =>
        simp only [hsp] at h
        injection h with h2
        exact PyErr.noConfusion h2
      | cons k tl =>
        cases tl with
        | nil =>
          simp only [hsp] at h
          injection h with h2
          exact PyErr.noConfusion h2
        | cons v r =>
          simp only [hsp] at h
          exact ih _ s h

lemma hostOpOf_ne_noSection (it : String × String) (s : String) :
    hostOpOf it ≠ .error (.noSection s) := by
  intro h
  unfold hostOpOf at h
  cases hps : paramsOfTokens (pySplit it.2 ' ') [] with
  | error e =>
    simp only [hps] at h
    injection h with h2
    exact paramsOfTokens_ne_noSection _ _ s (h2 ▸ hps)
  | ok ps =>
    simp only [hps] at h
    exact Except.noConfusion h

lemma nodesLoop_ne_noSection :
    ∀ (ns : List (String × String)) (coords : List String) (s : String),
      nodesLoop ns coords ≠ .error (.noSection s) := by
  intro ns
  induction ns with
  | nil =>
    intro coords s h
    exact Except.noConfusion h
  | cons it rest ih =>
    intro coords s h
    simp only [nodesLoop] at h
    by_cases hdup : it.2 ∈ coords ∧ it.2 ≠ "_"
    · rw [if_pos hdup] at h
      injection h with h2
      exact PyErr.noConfusion h2
    · rw [if_neg hdup] at h
      cases hop : hostOpOf it with
      | error e =>
        simp only [hop] at h
        injection h with h2
        exact hostOpOf_ne_noSection it s (h2 ▸ hop)
      | ok op =>
        simp only [hop] at h
        cases hrec : nodesLoop rest (coords ++ [it.2]) with
        | error e =>
          simp only [hrec] at h
          injection h with h2
          exact ih _ s (h2 ▸ hrec)
        | ok ops =>
          simp only [hrec] at h
          exact Except.noConfusion h

lemma linkParamOf_ne_noSection (t : String) (s : String) :
    linkParamOf t ≠ .error (.noSection s) := by
  intro h
  unfold linkParamOf at h
  cases hsp : pySplit t '=' with
  | nil =>
    simp only [hsp] at h
    injection h with h2
    exact PyErr.noConfusion h2
  | cons k tl =>
    cases tl with
    | nil =>
      simp only [hsp] at h
      injection h with h2
      exact PyErr.noConfusion h2
    | cons v r =>
      simp only [hsp] at h
      by_cases hik : k = "bw" ∨ k = "jitter" ∨ k = "max_queue_size"
      · rw [if_pos hik] at h
        cases hpi : pyInt v with
        | none =>
          simp only [hpi] at h
          injection h with h2
          exact PyErr.noConfusion h2
        | some n =>
          simp only [hpi] at h
          exact Except.noConfusion h
      · rw [if_neg hik] at h
        by_cases hkl : k = "loss"
        · rw [if_pos hkl] at h
          exact Except.noConfusion h
        · rw [if_neg hkl] at h
          exact Except.noConfusion h

lemma linkParamsLoop_ne_noSection :
    ∀ (ts : List String) (acc : List (String × PVal)) (s : String),
      linkParamsLoop ts acc ≠ .error (.noSection s) := by
  intro ts
  induction ts with
  | nil =>
    intro acc s h
    exact Except.noConfusion h
  | cons t ts ih =>
    intro acc s h
    simp only [linkParamsLoop] at h
    cases hlp : linkParamOf t with
    | error e =>
      simp only [hlp] at h
      injection h with h2
      exact linkParamOf_ne_noSection t s (h2 ▸ hlp)
    | ok kv =>
      simp only [hlp] at h
      exact ih _ s h

lemma linkOpOf_ne_noSection (it : String × String) (s : String) :
    linkOpOf it ≠ .error (.noSection s) := by
  intro h
  unfold linkOpOf at h
  cases hps : linkParamsLoop (pySplit it.2 ' ') [] with
  | error e =>
    simp only [hps] at h
    injection h with h2
    exact linkParamsLoop_ne_noSection _ _ s (h2 ▸ hps)
  | ok ps =>
    simp only [hps] at h
    cases hsp : pySplit it.1 ':' with
    | nil =>
      simp only [hsp] at h
      injection h with h2
      exact PyErr.noConfusion h2
    | cons a tl =>
      cases tl with
      | nil =>
        simp only [hsp] at h
        injection h with h2
        exact PyErr.noConfusion h2
      | cons b r =>
        simp only [hsp] at h
        exact Except.noConfusion h

lemma exMap_ne_noSection {α β : Type} {f : α → Except PyErr β}
    (hf : ∀ x s, f x ≠ .error (.noSection s)) :
    ∀ (xs : List α) (s : String), exMap f xs ≠ .error (.noSection s) := by
  intro xs
  induction xs with
  | nil =>
    intro s h
    exact Except.noConfusion h
  | cons a as ih =>
    intro s h
    simp only [exMap] at h
    cases hfa : f a with
    | error e =>
      simp only [hfa] at h
      injection h with h2
      exact hf a s (h2 ▸ hfa)
    | ok b =>
      simp only [hfa] at h
      cases hrec : exMap f as with
      | error e =>
        simp only [hrec] at h
        injection h with h2
        exact ih s (h2 ▸ hrec)
      | ok bs =>
        simp only [hrec] at h
        exact Except.noConfusion h

lemma configItems_of_hasSection {cfg : Config} {section_ : String}
    (h : hasSection cfg section_ = true) :
    ∃ items, configItems cfg section_ = .ok items := by
  unfold hasSection at h
  unfold configItems
  cases hf : cfg.find? (fun sec => sec.1 = section_) with
  | none =>
    rw [hf] at h
    simp at h
  | some sec =>
    exact ⟨sec.2, rfl⟩

lemma configItems_of_not_hasSection {cfg : Config} {section_ : String}
    (h : hasSection cfg section_ = false) :
    configItems cfg section_ = .error (.noSection section_) := by
  unfold hasSection at h
  unfold configItems
  cases hf : cfg.find? (fun sec => sec.1 = section_) with
  | none => rfl
  | some sec =>
    rw [hf] at h
    simp at h

/-- C10: the switches section is optional while nodes and links are not:
with nodes and links sections present `processTopo` can never raise
`NoSectionError`; a missing nodes section (or a missing links section,
once the nodes entries processed cleanly) makes `processTopo` raise
`NoSectionError`, which the constructor catches and turns into
`sys.exit(1)`; and when the entries themselves process cleanly the run
returns normally, the absent switches section contributing no operation. -/
theorem topo_sections_optionality :
    (∀ cfg : Config, hasSection cfg "nodes" = true → hasSection cfg "links" = true →
      ∀ s, processTopo cfg ≠ .error (.noSection s)) ∧
    (∀ cfg : Config, hasSection cfg "nodes" = false →
      processTopo cfg = .error (.noSection "nodes") ∧
      initTopo cfg = .error (.systemExit 1)) ∧
    (∀ (cfg : Config) (ns : List (String × String)) (hostOps : List TopoOp),
      configItems cfg "nodes" = .ok ns → nodesLoop ns [] = .ok hostOps →
      hasSection cfg "links" = false →
      processTopo cfg = .error (.noSection "links") ∧
      initTopo cfg = .error (.systemExit 1)) ∧
    (∀ (cfg : Config) (ns ls : List (String × String)) (hostOps linkOps : List TopoOp),
      configItems cfg "nodes" = .ok ns → nodesLoop ns [] = .ok hostOps →
      configItems cfg "links" = .ok ls → exMap linkOpOf ls = .ok linkOps →
      processTopo cfg = .ok (hostOps ++ switchOps cfg ++ linkOps) ∧
      (hasSection cfg "switches" = false → switchOps cfg = [])) := by
  refine ⟨?_, ?_, ?_, ?_⟩
  · intro cfg h1 h2 s h
    obtain ⟨ns, hns⟩ := configItems_of_hasSection h1
    obtain ⟨ls, hls⟩ := configItems_of_hasSection h2
    unfold processTopo at h
    simp only [hns, hls] at h
    cases hnl : nodesLoop ns [] with
    | error e =>
      simp only [hnl] at h
      injection h with h2'
      exact nodesLoop_ne_noSection ns [] s (h2' ▸ hnl)
    | ok hostOps =>
      simp only [hnl] at h
      cases hex : exMap linkOpOf ls with
      | error e =>
        simp only [hex] at h
        injection h with h2'
        exact exMap_ne_noSection linkOpOf_ne_noSection ls s (h2' ▸ hex)
      | ok linkOps =>
        simp only [hex] at h
        exact Except.noConfusion h
  · intro cfg h
    have hni := configItems_of_not_hasSection h
    have hp : processTopo cfg = .error (.noSection "nodes") := by
      unfold processTopo
      simp only [hni]
    exact ⟨hp, by unfold initTopo; simp only [hp]⟩
  · intro cfg ns hostOps hns hnl h
    have hli := configItems_of_not_hasSection h
    have hp : processTopo cfg = .error (.noSection "links") := by
      unfold processTopo
      simp only [hns, hnl, hli]
    exact ⟨hp, by unfold initTopo; simp only [hp]⟩
  · intro cfg ns ls hostOps linkOps hns hnl hls hex
    constructor
    · unfold processTopo
      simp only [hns, hnl, hls, hex]
    · intro hsw
      unfold switchOps
      rw [configItems_of_not_hasSection hsw]

theorem topo_sections_optionality_witness :
    processTopo [("links", ([] : List (String × String)))] =
      .error (.noSection "nodes") ∧
    initTopo [("links", ([] : List (String × String)))] =
      .error (.systemExit 1) :=
  topo_sections_optionality.2.1 [("links", [])] rfl
